import Mathlib

/-!
Verification of the product-catalog search pipeline (`search_products.py`).

The pipeline is embedded shallowly:

* The query normalizer (`format_search_string`, defined in the repository's
  `utils` module, which is not part of the sources at hand) is modelled from
  the specification, section 4.1, as five transformations applied in the
  stated order on the character list of the query.
* `search_products.py` itself is modelled with an explicit heap: a Python
  list of dicts is a list of pointers (`Nat` indices) into a store
  (`List PRecord`), so that aliasing between `direct_results` and its shallow
  `.copy()` is captured faithfully.  Mutations (`result['rapidfuzz_score'] = ...`,
  `result['given_name'] = ...`) become `List.set` updates of the store.
* External collaborators (MongoDB `find`, Pinecone query, the scoring helper
  `compute_rapidfuzz_score` and the display helper `compute_given_name`, both
  from the absent `utils` module) are parameters: fallible backends are
  `Except` values, the two helpers are abstract functions.
* Python's stable `list.sort(key=..., reverse=True)` is modelled as a stable
  descending insertion sort on the pointer list.
-/

/-! ## Query normalizer, modelled from the spec (section 4.1) -/

/-- Modelled from the spec: step 1 of `utils.format_search_string` (absent
from the sources).  "Split internal camelCase boundaries into separate words
(a lowercase-letter immediately followed by an uppercase letter becomes two
words joined by a space)." -/
def splitCamel : List Char → List Char
  | [] => []
  | [c] => [c]
  | a :: b :: rest =>
    if a.isLower && b.isUpper then a :: ' ' :: splitCamel (b :: rest)
    else a :: splitCamel (b :: rest)

/-- A letter immediately adjacent to a digit, in either direction. -/
def ldBoundary (a b : Char) : Bool :=
  (a.isAlpha && b.isDigit) || (a.isDigit && b.isAlpha)

/-- Modelled from the spec: step 2 of `utils.format_search_string`.  "Insert a
space between any letter and an immediately adjacent digit, and between any
digit and an immediately adjacent letter (both directions)." -/
def splitLetterDigit : List Char → List Char
  | [] => []
  | [c] => [c]
  | a :: b :: rest =>
    if ldBoundary a b then a :: ' ' :: splitLetterDigit (b :: rest)
    else a :: splitLetterDigit (b :: rest)

/-- Modelled from the spec: step 3 of `utils.format_search_string`.  "Remove
comma and semicolon characters entirely (not replaced by space)." -/
def removeCommaSemicolon (l : List Char) : List Char :=
  l.filter (fun c => !(c = ',' || c = ';'))

/-- Replace a whitespace character by a plain space, leave others alone. -/
def toSpace (c : Char) : Char :=
  if c.isWhitespace then ' ' else c

/-- Drop a space that is immediately followed by another space, keeping the
last space of every run. -/
def squeeze : List Char → List Char
  | [] => []
  | [c] => [c]
  | a :: b :: rest =>
    if a = ' ' && b = ' ' then squeeze (b :: rest)
    else a :: squeeze (b :: rest)

/-- Remove leading and trailing spaces. -/
def trimEnds (l : List Char) : List Char :=
  ((l.dropWhile (· = ' ')).reverse.dropWhile (· = ' ')).reverse

/-- Modelled from the spec: step 4 of `utils.format_search_string`.  "Collapse
all runs of whitespace to a single space and trim leading/trailing
whitespace." -/
def collapseWhitespace (l : List Char) : List Char :=
  trimEnds (squeeze (l.map toSpace))

/-- Modelled from the spec: step 5 of `utils.format_search_string`.
"Lowercase the entire result." -/
def lowercaseAll (l : List Char) : List Char :=
  l.map Char.toLower

/-- Modelled from the spec: `utils.format_search_string` (absent from the
sources), section 4.1: the five transformations applied in the stated order
1. camelCase split, 2. letter/digit split, 3. comma/semicolon removal,
4. whitespace collapse, 5. lowercasing. -/
def normalizeChars (l : List Char) : List Char :=
  lowercaseAll (collapseWhitespace (removeCommaSemicolon
    (splitLetterDigit (splitCamel l))))

/-- Modelled from the spec: `utils.format_search_string` on strings. -/
def format_search_string (s : String) : String :=
  ⟨normalizeChars s.data⟩

/-- The canonical shape produced by the whitespace-collapse step: every
whitespace character is a plain space, no two spaces are adjacent, and the
ends carry no space. -/
def Collapsed (l : List Char) : Prop :=
  (∀ c ∈ l, c.isWhitespace = true → c = ' ') ∧
  List.Chain' (fun a b => ¬(a = ' ' ∧ b = ' ')) l ∧
  (∀ c ∈ l.head?, c ≠ ' ') ∧
  (∀ c ∈ l.getLast?, c ≠ ' ')

/-! ## Records and the heap model of `search_products.py` -/

/-- A MongoDB product record (`search_products.py`).  `body` stands for the
opaque stored fields (`product_name`, `brands`, `search_string`, ...);
`score` is the MongoDB text score; `rapidfuzz_score` and `given_name` are
`none` while the corresponding dict key is absent. -/
structure PRecord where
  body : String := ""
  score : Option ℚ := none
  rapidfuzz_score : Option ℚ := none
  given_name : Option String := none
deriving DecidableEq, Repr

instance : Inhabited PRecord := ⟨{}⟩

/-- `result['given_name'] = compute_given_name(result)` (lines 128-129 and
136-137 of `search_products.py`), with `compute_given_name` abstract. -/
def givenUpd (g : PRecord → String) (r : PRecord) : PRecord :=
  { r with given_name := some (g r) }

/-- `result['rapidfuzz_score'] = compute_rapidfuzz_score(search_string, result)`
(lines 73-75 of `search_products.py`), with `compute_rapidfuzz_score`
abstract. -/
def scoreUpd (f : String → PRecord → ℚ) (search_string : String) (r : PRecord) :
    PRecord :=
  { r with rapidfuzz_score := some (f search_string r) }

/-- A `for result in results:` loop mutating each record in place: fold the
update over the pointer list, writing through to the shared store. -/
def updAll (u : PRecord → PRecord) (ptrs : List Nat) (heap : List PRecord) :
    List PRecord :=
  ptrs.foldl (fun h p => h.set p (u (h.getD p default))) heap

/-- The sort key of line 78: `x.get('rapidfuzz_score', 0)` — the record's
fuzzy score, or `0` when the key is absent. -/
def keyOf (heap : List PRecord) (p : Nat) : ℚ :=
  ((heap.getD p default).rapidfuzz_score).getD 0

/-- Stable descending insertion: `x` moves past exactly the entries with a
strictly greater key, so it lands before every entry of equal key. -/
def insertDesc (key : Nat → ℚ) (x : Nat) : List Nat → List Nat
  | [] => [x]
  | q :: qs => if key x < key q then q :: insertDesc key x qs else x :: q :: qs

/-- Python's stable `list.sort(key=..., reverse=True)` of line 78, as a
stable descending insertion sort of the pointer list. -/
def sortPtrs (key : Nat → ℚ) : List Nat → List Nat
  | [] => []
  | x :: xs => insertDesc key x (sortPtrs key xs)

/-- `apply_rapidfuzz_scoring` (lines 58-80): on a non-empty result list,
attach `compute_rapidfuzz_score(search_string, result)` to every record, then
sort by the attached score, descending.  Returns the sorted pointer list and
the mutated store. -/
def apply_rapidfuzz_scoring (f : String → PRecord → ℚ) (search_string : String)
    (ptrs : List Nat) (heap : List PRecord) : List Nat × List PRecord :=
  if ptrs.isEmpty then (ptrs, heap)
  else
    let h := updAll (scoreUpd f search_string) ptrs heap
    (sortPtrs (keyOf h) ptrs, h)

/-- `search_products_direct` (lines 26-55): the MongoDB text-search call,
with any backend exception caught at the call site and turned into an empty
result list. -/
def search_products_direct (findOutcome : Except String (List PRecord)) :
    List PRecord :=
  match findOutcome with
  | .ok results => results
  | .error _ => []

/-- A Pinecone match: id, similarity score and stored text (metadata is
opaque pass-through). -/
structure SemRecord where
  id : String := ""
  score : ℚ := 0
  text : String := ""
deriving DecidableEq, Repr

instance : Inhabited SemRecord := ⟨{}⟩

/-- Modelled from the spec: `pinecone_integration.search_pinecone` (absent
from the sources).  Section 7: a backend query error is "caught at the call
site, logged/reported, and treated as zero results for that path". -/
def search_pinecone (queryOutcome : Except String (List SemRecord)) :
    List SemRecord :=
  match queryOutcome with
  | .ok results => results
  | .error _ => []

/-- The result dictionary built by `search_products` (lines 144-160) on the
success path: the three result lists with their counts, plus the input and
formatted query strings.  `heap` is the shared record store both pointer
lists point into. -/
structure Bundle where
  input_string : String
  formatted_string : String
  directPtrs : List Nat
  directCount : Nat
  rapidfuzzPtrs : List Nat
  rapidfuzzCount : Nat
  pineconeResults : List SemRecord
  pineconeCount : Nat
  heap : List PRecord
deriving DecidableEq, Repr

/-- The value returned by `search_products`: either a dictionary holding only
an `error` entry, or the full result bundle. -/
inductive SearchResult where
  | error (msg : String)
  | ok (bundle : Bundle)
deriving DecidableEq, Repr

/-- `search_products` (lines 84-178).  Parameters: `g` models
`utils.compute_given_name`, `f` models `utils.compute_rapidfuzz_score`,
`mongo_uri` is the `MONGO_URI` environment variable, `conn` the outcome of
connecting and pinging MongoDB, `findOutcome` the outcome of the text-search
query, `pineconeOutcome` the outcome of the Pinecone query. -/
def search_products (g : PRecord → String) (f : String → PRecord → ℚ)
    (mongo_uri : Option String) (conn : Except String Unit)
    (search_string : String) (findOutcome : Except String (List PRecord))
    (pineconeOutcome : Except String (List SemRecord)) : SearchResult :=
  match mongo_uri with
  | none => .error "MONGO_URI not set"
  | some _ =>
    match conn with
    | .error e => .error ("MongoDB connection failed: " ++ e)
    | .ok _ =>
      let formatted_string := format_search_string search_string
      let direct_results := search_products_direct findOutcome
      let directPtrs := List.range direct_results.length
      let heap1 := updAll (givenUpd g) directPtrs direct_results
      let scored := apply_rapidfuzz_scoring f search_string directPtrs heap1
      let heap3 := updAll (givenUpd g) scored.1 scored.2
      let pinecone_results := search_pinecone pineconeOutcome
      .ok { input_string := search_string
            formatted_string := formatted_string
            directPtrs := directPtrs
            directCount := directPtrs.length
            rapidfuzzPtrs := scored.1
            rapidfuzzCount := scored.1.length
            pineconeResults := pinecone_results
            pineconeCount := pinecone_results.length
            heap := heap3 }

/-! ## The command-line boundary (`main`, lines 212-235) -/

/-- Python's `str.strip()`: remove leading and trailing whitespace. -/
def pyStrip (s : String) : String :=
  ⟨((s.data.dropWhile Char.isWhitespace).reverse.dropWhile
      Char.isWhitespace).reverse⟩

/-- How a run of `main` ends: early rejection of a blank query (line 222),
exit 1 after `search_products` returned an error (line 235), or normal
completion with the result bundle. -/
inductive MainOutcome where
  | earlyExit (code : Nat)
  | searchFailed (code : Nat) (msg : String)
  | completed (bundle : Bundle)
deriving DecidableEq, Repr

/-- `main` (lines 212-235), parameterized over the whole search pipeline
`searchFn` so that the early-rejection path is visibly independent of it:
`if not args.search_string.strip(): sys.exit(1)` runs before any search. -/
def main_model (searchFn : String → SearchResult) (search_string : String) :
    MainOutcome :=
  if (pyStrip search_string).data.isEmpty then .earlyExit 1
  else
    match searchFn search_string with
    | .error e => .searchFailed 1 e
    | .ok b => .completed b

/-- Concrete `compute_given_name` stand-in used for witness evaluations. -/
def gW : PRecord → String := fun r => r.body

/-- Concrete `compute_rapidfuzz_score` stand-in used for witness
evaluations. -/
def fW : String → PRecord → ℚ := fun q r => (q.length : ℚ) + (r.body.length : ℚ)

/-- A concrete backend record used for witness evaluations. -/
def rW : PRecord := { body := "alpha" }

/-! ## Character-level facts -/

theorem char_eq_iff_toNat {c d : Char} : c = d ↔ c.toNat = d.toNat := by
  constructor
  · rintro rfl; rfl
  · intro h; exact Char.ext (UInt32.ext h)

theorem char_isWhitespace_iff {c : Char} :
    c.isWhitespace = true ↔ c.toNat = 32 ∨ c.toNat = 9 ∨ c.toNat = 13 ∨ c.toNat = 10 := by
  simp only [Char.isWhitespace, Bool.or_eq_true, decide_eq_true_eq, char_eq_iff_toNat]
  constructor
  · rintro (((h | h) | h) | h) <;> simp_all
  · rintro (h | h | h | h) <;> simp_all

theorem char_isUpper_iff {c : Char} : c.isUpper = true ↔ 65 ≤ c.toNat ∧ c.toNat ≤ 90 := by
  simp [Char.isUpper, Char.toNat]
  constructor
  · rintro ⟨h1, h2⟩; exact ⟨h1, h2⟩
  · rintro ⟨h1, h2⟩; exact ⟨h1, h2⟩

theorem char_isLower_iff {c : Char} : c.isLower = true ↔ 97 ≤ c.toNat ∧ c.toNat ≤ 122 := by
  simp [Char.isLower, Char.toNat]
  constructor
  · rintro ⟨h1, h2⟩; exact ⟨h1, h2⟩
  · rintro ⟨h1, h2⟩; exact ⟨h1, h2⟩

theorem char_isDigit_iff {c : Char} : c.isDigit = true ↔ 48 ≤ c.toNat ∧ c.toNat ≤ 57 := by
  simp [Char.isDigit, Char.toNat]
  constructor
  · rintro ⟨h1, h2⟩; exact ⟨h1, h2⟩
  · rintro ⟨h1, h2⟩; exact ⟨h1, h2⟩

theorem char_toNat_ofNat {n : Nat} (h : n < 55296) : (Char.ofNat n).toNat = n := by
  rw [Char.ofNat, dif_pos (Or.inl (by exact_mod_cast h))]
  simp [Char.ofNatAux, Char.toNat, UInt32.toNat]

theorem char_toLower_of_upper {c : Char} (h : c.isUpper = true) :
    (c.toLower).toNat = c.toNat + 32 := by
  rw [char_isUpper_iff] at h
  rw [Char.toLower, if_pos ⟨h.1, h.2⟩]
  exact char_toNat_ofNat (by omega)

theorem char_toLower_of_not_upper {c : Char} (h : ¬ c.isUpper = true) : c.toLower = c := by
  rw [char_isUpper_iff] at h
  rw [Char.toLower, if_neg (by omega)]

theorem char_isUpper_toLower (c : Char) : (c.toLower).isUpper = false := by
  by_cases h : c.isUpper = true
  · have h2 := char_toLower_of_upper h
    rw [char_isUpper_iff] at h
    simp only [Bool.eq_false_iff, Ne, char_isUpper_iff, h2]
    omega
  · rw [char_toLower_of_not_upper h]
    simpa using h

theorem char_isAlpha_iff {c : Char} :
    c.isAlpha = true ↔ (65 ≤ c.toNat ∧ c.toNat ≤ 90) ∨ (97 ≤ c.toNat ∧ c.toNat ≤ 122) := by
  simp [Char.isAlpha, char_isUpper_iff, char_isLower_iff]

theorem char_isAlpha_toLower (c : Char) : (c.toLower).isAlpha = c.isAlpha := by
  by_cases h : c.isUpper = true
  · have h2 := char_toLower_of_upper h
    have h3 := h
    rw [char_isUpper_iff] at h3
    have ha : c.isAlpha = true := by rw [char_isAlpha_iff]; omega
    have hb : (c.toLower).isAlpha = true := by rw [char_isAlpha_iff]; omega
    rw [ha, hb]
  · rw [char_toLower_of_not_upper h]

theorem char_isDigit_toLower (c : Char) : (c.toLower).isDigit = c.isDigit := by
  by_cases h : c.isUpper = true
  · have h2 := char_toLower_of_upper h
    have h3 := h
    rw [char_isUpper_iff] at h3
    have ha : c.isDigit = false := by
      simp only [Bool.eq_false_iff, Ne, char_isDigit_iff]; omega
    have hb : (c.toLower).isDigit = false := by
      simp only [Bool.eq_false_iff, Ne, char_isDigit_iff, h2]; omega
    rw [ha, hb]
  · rw [char_toLower_of_not_upper h]

theorem char_isWhitespace_toLower (c : Char) : (c.toLower).isWhitespace = c.isWhitespace := by
  by_cases h : c.isUpper = true
  · have h2 := char_toLower_of_upper h
    have h3 := h
    rw [char_isUpper_iff] at h3
    have ha : c.isWhitespace = false := by
      simp only [Bool.eq_false_iff, Ne, char_isWhitespace_iff]; omega
    have hb : (c.toLower).isWhitespace = false := by
      simp only [Bool.eq_false_iff, Ne, char_isWhitespace_iff, h2]; omega
    rw [ha, hb]
  · rw [char_toLower_of_not_upper h]

theorem char_toLower_eq_space_iff {c : Char} : c.toLower = ' ' ↔ c = ' ' := by
  by_cases h : c.isUpper = true
  · have h2 := char_toLower_of_upper h
    have h3 := h
    rw [char_isUpper_iff] at h3
    have hsp : (' ' : Char).toNat = 32 := rfl
    constructor
    · intro hs
      rw [char_eq_iff_toNat, h2, hsp] at hs
      omega
    · intro hs
      rw [char_eq_iff_toNat, hsp] at hs
      omega
  · rw [char_toLower_of_not_upper h]

theorem char_toLower_ne_comma {c : Char} (h : c ≠ ',') : c.toLower ≠ ',' := by
  by_cases hu : c.isUpper = true
  · have h2 := char_toLower_of_upper hu
    have h3 := hu
    rw [char_isUpper_iff] at h3
    intro hs
    rw [char_eq_iff_toNat, h2] at hs
    have hc : (',' : Char).toNat = 44 := rfl
    rw [hc] at hs
    omega
  · rw [char_toLower_of_not_upper hu]; exact h

theorem char_toLower_ne_semicolon {c : Char} (h : c ≠ ';') : c.toLower ≠ ';' := by
  by_cases hu : c.isUpper = true
  · have h2 := char_toLower_of_upper hu
    have h3 := hu
    rw [char_isUpper_iff] at h3
    intro hs
    rw [char_eq_iff_toNat, h2] at hs
    have hc : (';' : Char).toNat = 59 := rfl
    rw [hc] at hs
    omega
  · rw [char_toLower_of_not_upper hu]; exact h

theorem char_space_not_alpha : (' ' : Char).isAlpha = false := by decide

theorem char_space_not_digit : (' ' : Char).isDigit = false := by decide

theorem ldBoundary_space_left (b : Char) : ldBoundary ' ' b = false := by
  simp [ldBoundary, char_space_not_alpha, char_space_not_digit]

theorem ldBoundary_space_right (a : Char) : ldBoundary a ' ' = false := by
  simp [ldBoundary, char_space_not_alpha, char_space_not_digit]

theorem ldBoundary_toLower (a b : Char) :
    ldBoundary a.toLower b.toLower = ldBoundary a b := by
  simp [ldBoundary, char_isAlpha_toLower, char_isDigit_toLower]

theorem toSpace_eq_self_or_space (c : Char) : toSpace c = c ∨ toSpace c = ' ' := by
  unfold toSpace
  split <;> simp

theorem ldBoundary_toSpace (a b : Char) (h : ldBoundary a b = false) :
    ldBoundary (toSpace a) (toSpace b) = false := by
  unfold toSpace
  split <;> split <;>
    simp [ldBoundary_space_left, ldBoundary_space_right, h]

/-! ## Normalizer: structural lemmas -/

theorem mem_splitCamel {c : Char} : ∀ {l : List Char}, c ∈ splitCamel l → c ∈ l ∨ c = ' '
  | [], h => by simpa [splitCamel] using h
  | [a], h => Or.inl (by rwa [splitCamel] at h)
  | a :: b :: rest, h => by
    rw [splitCamel] at h
    split at h
    · simp only [List.mem_cons] at h
      rcases h with h | h | h
      · exact Or.inl (by simp [h])
      · exact Or.inr h
      · rcases mem_splitCamel h with h' | h'
        · exact Or.inl (List.mem_cons_of_mem _ h')
        · exact Or.inr h'
    · simp only [List.mem_cons] at h
      rcases h with h | h
      · exact Or.inl (by simp [h])
      · rcases mem_splitCamel h with h' | h'
        · exact Or.inl (List.mem_cons_of_mem _ h')
        · exact Or.inr h'

theorem mem_splitLetterDigit {c : Char} :
    ∀ {l : List Char}, c ∈ splitLetterDigit l → c ∈ l ∨ c = ' '
  | [], h => by simpa [splitLetterDigit] using h
  | [a], h => Or.inl (by rwa [splitLetterDigit] at h)
  | a :: b :: rest, h => by
    rw [splitLetterDigit] at h
    split at h
    · simp only [List.mem_cons] at h
      rcases h with h | h | h
      · exact Or.inl (by simp [h])
      · exact Or.inr h
      · rcases mem_splitLetterDigit h with h' | h'
        · exact Or.inl (List.mem_cons_of_mem _ h')
        · exact Or.inr h'
    · simp only [List.mem_cons] at h
      rcases h with h | h
      · exact Or.inl (by simp [h])
      · rcases mem_splitLetterDigit h with h' | h'
        · exact Or.inl (List.mem_cons_of_mem _ h')
        · exact Or.inr h'

theorem splitCamel_eq_self :
    ∀ {l : List Char}, (∀ c ∈ l, c.isUpper = false) → splitCamel l = l
  | [], _ => rfl
  | [a], _ => rfl
  | a :: b :: rest, h => by
    rw [splitCamel, if_neg]
    · rw [splitCamel_eq_self (fun c hc => h c (List.mem_cons_of_mem _ hc))]
    · have hb : b.isUpper = false := h b (by simp)
      simp [hb]

theorem splitLetterDigit_eq_self :
    ∀ {l : List Char}, List.Chain' (fun a b => ldBoundary a b = false) l →
      splitLetterDigit l = l
  | [], _ => rfl
  | [a], _ => rfl
  | a :: b :: rest, h => by
    rw [List.chain'_cons'] at h
    have hab : ldBoundary a b = false := h.1 b rfl
    rw [splitLetterDigit, if_neg (by simp [hab])]
    rw [splitLetterDigit_eq_self h.2]

theorem splitLetterDigit_cons_head :
    ∀ (a : Char) (l : List Char), ∃ t, splitLetterDigit (a :: l) = a :: t
  | a, [] => ⟨[], rfl⟩
  | a, b :: rest => by
    rw [splitLetterDigit]
    split
    · exact ⟨_, rfl⟩
    · exact ⟨_, rfl⟩

theorem chain'_splitLetterDigit :
    ∀ (l : List Char), List.Chain' (fun a b => ldBoundary a b = false) (splitLetterDigit l)
  | [] => List.chain'_nil
  | [a] => List.chain'_singleton a
  | a :: b :: rest => by
    have ih := chain'_splitLetterDigit (b :: rest)
    obtain ⟨t, ht⟩ := splitLetterDigit_cons_head b rest
    rw [splitLetterDigit]
    split
    · rename_i hcond
      rw [List.chain'_cons', List.chain'_cons']
      refine ⟨?_, ?_, ih⟩
      · intro y hy
        simp at hy
        subst hy
        exact ldBoundary_space_right a
      · intro y hy
        rw [ht] at hy
        simp at hy
        subst hy
        exact ldBoundary_space_left b
    · rename_i hcond
      rw [List.chain'_cons']
      refine ⟨?_, ih⟩
      intro y hy
      rw [ht] at hy
      simp at hy
      subst hy
      simpa using hcond

theorem squeeze_cons_head :
    ∀ (a : Char) (l : List Char), ∃ t, squeeze (a :: l) = a :: t
  | a, [] => ⟨[], rfl⟩
  | a, b :: rest => by
    rw [squeeze]
    split
    · rename_i hcond
      simp only [Bool.and_eq_true, decide_eq_true_eq] at hcond
      obtain ⟨t, ht⟩ := squeeze_cons_head b rest
      rw [ht, hcond.1, hcond.2]
      exact ⟨t, rfl⟩
    · exact ⟨_, rfl⟩

theorem mem_squeeze {c : Char} : ∀ {l : List Char}, c ∈ squeeze l → c ∈ l
  | [], h => by simpa [squeeze] using h
  | [a], h => by rwa [squeeze] at h
  | a :: b :: rest, h => by
    rw [squeeze] at h
    split at h
    · exact List.mem_cons_of_mem _ (mem_squeeze h)
    · simp only [List.mem_cons] at h
      rcases h with h | h
      · simp [h]
      · exact List.mem_cons_of_mem _ (mem_squeeze h)

theorem chain'_squeeze {R : Char → Char → Prop} :
    ∀ {l : List Char}, List.Chain' R l → List.Chain' R (squeeze l)
  | [], _ => List.chain'_nil
  | [a], _ => List.chain'_singleton a
  | a :: b :: rest, h => by
    rw [List.chain'_cons'] at h
    rw [squeeze]
    split
    · exact chain'_squeeze h.2
    · rw [List.chain'_cons']
      refine ⟨?_, chain'_squeeze h.2⟩
      intro y hy
      obtain ⟨t, ht⟩ := squeeze_cons_head b rest
      rw [ht] at hy
      simp at hy
      subst hy
      exact h.1 b rfl

theorem chain'_squeeze_no_double_space :
    ∀ (l : List Char), List.Chain' (fun a b => ¬(a = ' ' ∧ b = ' ')) (squeeze l)
  | [] => List.chain'_nil
  | [a] => List.chain'_singleton a
  | a :: b :: rest => by
    have ih := chain'_squeeze_no_double_space (b :: rest)
    rw [squeeze]
    split
    · exact ih
    · rename_i hcond
      rw [List.chain'_cons']
      refine ⟨?_, ih⟩
      intro y hy
      obtain ⟨t, ht⟩ := squeeze_cons_head b rest
      rw [ht] at hy
      simp at hy
      subst hy
      intro hc
      rw [hc.1, hc.2] at hcond
      simp at hcond

theorem squeeze_eq_self :
    ∀ {l : List Char}, List.Chain' (fun a b => ¬(a = ' ' ∧ b = ' ')) l → squeeze l = l
  | [], _ => rfl
  | [a], _ => rfl
  | a :: b :: rest, h => by
    rw [List.chain'_cons'] at h
    have hab := h.1 b rfl
    rw [squeeze, if_neg]
    · rw [squeeze_eq_self h.2]
    · simp only [Bool.and_eq_true, decide_eq_true_eq]
      intro hc
      exact hab hc

theorem map_eq_self_of {f : Char → Char} :
    ∀ {l : List Char}, (∀ c ∈ l, f c = c) → l.map f = l
  | [], _ => rfl
  | a :: t, h => by
    rw [List.map_cons, h a (by simp), map_eq_self_of (fun c hc => h c (List.mem_cons_of_mem _ hc))]

theorem head?_dropWhile_ne {p : Char → Bool} {c : Char} :
    ∀ {l : List Char}, (l.dropWhile p).head? = some c → p c = false
  | [], h => by simp [List.dropWhile] at h
  | a :: t, h => by
    rw [List.dropWhile] at h
    split at h
    · exact head?_dropWhile_ne h
    · rename_i hpa
      simp at h
      rw [← h]
      simpa using hpa

theorem mem_trimEnds {c : Char} {l : List Char} (h : c ∈ trimEnds l) : c ∈ l := by
  unfold trimEnds at h
  rw [List.mem_reverse] at h
  have h1 := (List.dropWhile_sublist (l := (l.dropWhile (· = ' ')).reverse) (· = ' ')).mem h
  rw [List.mem_reverse] at h1
  exact (List.dropWhile_sublist (· = ' ')).mem h1

theorem chain'_trimEnds {R : Char → Char → Prop} {l : List Char}
    (h : List.Chain' R l) : List.Chain' R (trimEnds l) := by
  unfold trimEnds
  have h1 : List.Chain' R (l.dropWhile (· = ' ')) :=
    h.suffix (List.dropWhile_suffix _)
  have h2 : List.Chain' (flip R) ((l.dropWhile (· = ' ')).reverse) :=
    List.chain'_reverse.mpr h1
  have h3 : List.Chain' (flip R) (((l.dropWhile (· = ' ')).reverse).dropWhile (· = ' ')) :=
    h2.suffix (List.dropWhile_suffix _)
  exact List.chain'_reverse.mpr h3

theorem head?_trimEnds_ne {c : Char} {l : List Char}
    (h : (trimEnds l).head? = some c) : c ≠ ' ' := by
  unfold trimEnds at h
  set l1 := l.dropWhile (· = ' ') with hl1
  obtain ⟨t, ht⟩ : ∃ t, (l1.reverse.dropWhile (· = ' ')).reverse = c :: t := by
    cases hx : (l1.reverse.dropWhile (· = ' ')).reverse with
    | nil => rw [hx] at h; simp at h
    | cons d t => rw [hx] at h; simp at h; exact ⟨t, by rw [h]⟩
  have hmem : l1.head? = some c := by
    have hsuf : (l1.reverse.dropWhile (· = ' ')) <:+ l1.reverse :=
      List.dropWhile_suffix _
    have hsuf2 : ((l1.reverse.dropWhile (· = ' ')).reverse).reverse <:+ l1.reverse := by
      rw [List.reverse_reverse]
      exact hsuf
    have hp : (l1.reverse.dropWhile (· = ' ')).reverse <+: l1 :=
      List.reverse_suffix.mp hsuf2
    obtain ⟨u, hu⟩ := hp
    rw [ht] at hu
    rw [← hu]
    simp
  have := head?_dropWhile_ne (p := (· = ' ')) (l := l) (by rw [← hl1]; exact hmem)
  simpa using this

theorem getLast?_trimEnds_ne {c : Char} {l : List Char}
    (h : (trimEnds l).getLast? = some c) : c ≠ ' ' := by
  unfold trimEnds at h
  rw [List.getLast?_reverse] at h
  have := head?_dropWhile_ne (p := (· = ' ')) h
  simpa using this

theorem dropWhile_eq_self_of_head {p : Char → Bool} {l : List Char}
    (h : ∀ c ∈ l.head?, p c = false) : l.dropWhile p = l := by
  cases l with
  | nil => rfl
  | cons a t =>
    rw [List.dropWhile_cons, if_neg]
    simp [h a rfl]

theorem trimEnds_eq_self {l : List Char}
    (h1 : ∀ c ∈ l.head?, c ≠ ' ') (h2 : ∀ c ∈ l.getLast?, c ≠ ' ') :
    trimEnds l = l := by
  unfold trimEnds
  have e1 : l.dropWhile (· = ' ') = l :=
    dropWhile_eq_self_of_head (fun c hc => decide_eq_false (h1 c hc))
  rw [e1]
  have e2 : l.reverse.dropWhile (· = ' ') = l.reverse :=
    dropWhile_eq_self_of_head (by
      intro c hc
      rw [List.head?_reverse] at hc
      exact decide_eq_false (h2 c hc))
  rw [e2, List.reverse_reverse]

theorem collapsed_collapseWhitespace (l : List Char) :
    Collapsed (collapseWhitespace l) := by
  refine ⟨?_, ?_, ?_, ?_⟩
  · intro c hc hws
    have h1 : c ∈ (l.map toSpace) := mem_squeeze (mem_trimEnds hc)
    rw [List.mem_map] at h1
    obtain ⟨a, _, ha⟩ := h1
    unfold toSpace at ha
    split at ha
    · exact ha.symm
    · rename_i hn
      rw [ha] at hn
      exact absurd hws hn
  · exact chain'_trimEnds (chain'_squeeze_no_double_space _)
  · intro c hc
    exact head?_trimEnds_ne (by simpa using hc)
  · intro c hc
    exact getLast?_trimEnds_ne (by simpa using hc)

theorem collapseWhitespace_eq_self {l : List Char} (h : Collapsed l) :
    collapseWhitespace l = l := by
  obtain ⟨hws, hch, hh, hl⟩ := h
  unfold collapseWhitespace
  rw [map_eq_self_of (by
    intro c hc
    unfold toSpace
    split
    · rename_i hw
      exact (hws c hc hw).symm
    · rfl)]
  rw [squeeze_eq_self hch]
  exact trimEnds_eq_self hh hl

/-! ## Normalizer: the canonical form is a fixed point -/

theorem chain'_ld_collapseWhitespace {l : List Char}
    (h : List.Chain' (fun a b => ldBoundary a b = false) l) :
    List.Chain' (fun a b => ldBoundary a b = false) (collapseWhitespace l) := by
  unfold collapseWhitespace
  apply chain'_trimEnds
  apply chain'_squeeze
  rw [List.chain'_map]
  exact h.imp (fun a b hab => ldBoundary_toSpace _ _ hab)

theorem chain'_ld_lowercaseAll {l : List Char}
    (h : List.Chain' (fun a b => ldBoundary a b = false) l) :
    List.Chain' (fun a b => ldBoundary a b = false) (lowercaseAll l) := by
  unfold lowercaseAll
  rw [List.chain'_map]
  exact h.imp (fun a b hab => by rw [ldBoundary_toLower]; exact hab)

theorem toLower_space : Char.toLower ' ' = ' ' := by decide

theorem collapsed_lowercaseAll {l : List Char} (h : Collapsed l) :
    Collapsed (lowercaseAll l) := by
  obtain ⟨hws, hch, hh, hl⟩ := h
  refine ⟨?_, ?_, ?_, ?_⟩
  · intro c hc hcws
    rw [lowercaseAll, List.mem_map] at hc
    obtain ⟨a, ha, hac⟩ := hc
    rw [← hac] at hcws ⊢
    rw [char_isWhitespace_toLower] at hcws
    rw [hws a ha hcws]
    exact toLower_space
  · rw [lowercaseAll, List.chain'_map]
    exact hch.imp (fun a b hab hc =>
      hab ⟨char_toLower_eq_space_iff.mp hc.1, char_toLower_eq_space_iff.mp hc.2⟩)
  · intro c hc
    rw [lowercaseAll, List.head?_map] at hc
    rw [Option.mem_def, Option.map_eq_some'] at hc
    obtain ⟨a, ha, hac⟩ := hc
    rw [← hac]
    intro hcontra
    exact hh a ha (char_toLower_eq_space_iff.mp hcontra)
  · intro c hc
    rw [lowercaseAll, List.getLast?_map] at hc
    rw [Option.mem_def, Option.map_eq_some'] at hc
    obtain ⟨a, ha, hac⟩ := hc
    rw [← hac]
    intro hcontra
    exact hl a ha (char_toLower_eq_space_iff.mp hcontra)

theorem noUpper_lowercaseAll (l : List Char) :
    ∀ c ∈ lowercaseAll l, c.isUpper = false := by
  intro c hc
  rw [lowercaseAll, List.mem_map] at hc
  obtain ⟨a, _, hac⟩ := hc
  rw [← hac]
  exact char_isUpper_toLower a

theorem lowercaseAll_eq_self {l : List Char} (h : ∀ c ∈ l, c.isUpper = false) :
    lowercaseAll l = l :=
  map_eq_self_of (fun c hc => char_toLower_of_not_upper (by simp [h c hc]))

theorem removeCommaSemicolon_eq_self {l : List Char}
    (h : ∀ c ∈ l, c ≠ ',' ∧ c ≠ ';') : removeCommaSemicolon l = l := by
  rw [removeCommaSemicolon, List.filter_eq_self]
  intro a ha
  simp [(h a ha).1, (h a ha).2]

theorem noCS_splitCamel {l : List Char} (h : ∀ c ∈ l, c ≠ ',' ∧ c ≠ ';') :
    ∀ c ∈ splitCamel l, c ≠ ',' ∧ c ≠ ';' := by
  intro c hc
  rcases mem_splitCamel hc with h' | h'
  · exact h c h'
  · rw [h']; exact ⟨by decide, by decide⟩

theorem noCS_splitLetterDigit {l : List Char} (h : ∀ c ∈ l, c ≠ ',' ∧ c ≠ ';') :
    ∀ c ∈ splitLetterDigit l, c ≠ ',' ∧ c ≠ ';' := by
  intro c hc
  rcases mem_splitLetterDigit hc with h' | h'
  · exact h c h'
  · rw [h']; exact ⟨by decide, by decide⟩

theorem noCS_collapseWhitespace {l : List Char} (h : ∀ c ∈ l, c ≠ ',' ∧ c ≠ ';') :
    ∀ c ∈ collapseWhitespace l, c ≠ ',' ∧ c ≠ ';' := by
  intro c hc
  have h1 : c ∈ l.map toSpace := mem_squeeze (mem_trimEnds hc)
  rw [List.mem_map] at h1
  obtain ⟨a, ha, hac⟩ := h1
  rcases toSpace_eq_self_or_space a with h' | h'
  · rw [← hac, h']
    exact h a ha
  · rw [← hac, h']
    exact ⟨by decide, by decide⟩

theorem noCS_lowercaseAll {l : List Char} (h : ∀ c ∈ l, c ≠ ',' ∧ c ≠ ';') :
    ∀ c ∈ lowercaseAll l, c ≠ ',' ∧ c ≠ ';' := by
  intro c hc
  rw [lowercaseAll, List.mem_map] at hc
  obtain ⟨a, ha, hac⟩ := hc
  rw [← hac]
  exact ⟨char_toLower_ne_comma (h a ha).1, char_toLower_ne_semicolon (h a ha).2⟩

theorem normalizeChars_idem {l : List Char} (h : ∀ c ∈ l, c ≠ ',' ∧ c ≠ ';') :
    normalizeChars (normalizeChars l) = normalizeChars l := by
  have hcs2 : ∀ c ∈ splitLetterDigit (splitCamel l), c ≠ ',' ∧ c ≠ ';' :=
    noCS_splitLetterDigit (noCS_splitCamel h)
  have h3 : removeCommaSemicolon (splitLetterDigit (splitCamel l))
      = splitLetterDigit (splitCamel l) := removeCommaSemicolon_eq_self hcs2
  have hinner : normalizeChars l
      = lowercaseAll (collapseWhitespace (splitLetterDigit (splitCamel l))) := by
    rw [normalizeChars, h3]
  set v2 := splitLetterDigit (splitCamel l) with hv2
  set t := lowercaseAll (collapseWhitespace v2) with ht
  have hupT : ∀ c ∈ t, c.isUpper = false := noUpper_lowercaseAll _
  have hchT : List.Chain' (fun a b => ldBoundary a b = false) t :=
    chain'_ld_lowercaseAll (chain'_ld_collapseWhitespace (chain'_splitLetterDigit _))
  have hcolT : Collapsed t :=
    collapsed_lowercaseAll (collapsed_collapseWhitespace v2)
  have hcsT : ∀ c ∈ t, c ≠ ',' ∧ c ≠ ';' :=
    noCS_lowercaseAll (noCS_collapseWhitespace hcs2)
  rw [hinner]
  rw [normalizeChars, splitCamel_eq_self hupT, splitLetterDigit_eq_self hchT,
    removeCommaSemicolon_eq_self hcsT, collapseWhitespace_eq_self hcolT,
    lowercaseAll_eq_self hupT]

/-! ## Heap-update lemmas -/

theorem getD_set_self {l : List PRecord} {i : Nat} {a d : PRecord}
    (h : i < l.length) : (l.set i a).getD i d = a := by
  rw [List.getD_eq_getElem?_getD, List.getElem?_set_self (by simpa using h)]
  rfl

theorem getD_set_ne {l : List PRecord} {i j : Nat} {a d : PRecord}
    (hne : i ≠ j) : (l.set i a).getD j d = l.getD j d := by
  rw [List.getD_eq_getElem?_getD, List.getElem?_set_ne hne, ← List.getD_eq_getElem?_getD]

theorem length_updAll (u : PRecord → PRecord) :
    ∀ (ptrs : List Nat) (heap : List PRecord),
      (updAll u ptrs heap).length = heap.length
  | [], heap => rfl
  | a :: rest, heap => by
    rw [updAll, List.foldl_cons]
    rw [show List.foldl _ _ rest = updAll u rest (heap.set a (u (heap.getD a default)))
      from rfl]
    rw [length_updAll u rest, List.length_set]

theorem getD_updAll_of_not_mem (u : PRecord → PRecord) {p : Nat} :
    ∀ {ptrs : List Nat} {heap : List PRecord}, p ∉ ptrs →
      (updAll u ptrs heap).getD p default = heap.getD p default
  | [], heap, _ => rfl
  | a :: rest, heap, hp => by
    rw [updAll, List.foldl_cons]
    rw [show List.foldl _ _ rest = updAll u rest (heap.set a (u (heap.getD a default)))
      from rfl]
    rw [getD_updAll_of_not_mem u (fun hmem => hp (List.mem_cons_of_mem _ hmem))]
    exact getD_set_ne (fun hap => hp (by rw [hap]; simp))

theorem getD_updAll_of_mem (u : PRecord → PRecord) {p : Nat} :
    ∀ {ptrs : List Nat} {heap : List PRecord}, ptrs.Nodup → p ∈ ptrs →
      p < heap.length →
      (updAll u ptrs heap).getD p default = u (heap.getD p default)
  | [], heap, _, hmem, _ => absurd hmem (by simp)
  | a :: rest, heap, hnd, hmem, hlt => by
    rw [updAll, List.foldl_cons]
    rw [show List.foldl _ _ rest = updAll u rest (heap.set a (u (heap.getD a default)))
      from rfl]
    rw [List.nodup_cons] at hnd
    rcases List.mem_cons.mp hmem with hpa | hpr
    · subst hpa
      rw [getD_updAll_of_not_mem u hnd.1]
      exact getD_set_self hlt
    · rw [getD_updAll_of_mem u hnd.2 hpr (by rw [List.length_set]; exact hlt)]
      rw [getD_set_ne (fun hap => hnd.1 (by rw [hap]; exact hpr))]

/-! ## Sorting lemmas -/

theorem insertDesc_perm (key : Nat → ℚ) (x : Nat) :
    ∀ (l : List Nat), (insertDesc key x l).Perm (x :: l)
  | [] => List.Perm.refl _
  | q :: qs => by
    rw [insertDesc]
    split
    · exact ((insertDesc_perm key x qs).cons q).trans (List.Perm.swap x q qs)
    · exact List.Perm.refl _

theorem sortPtrs_perm (key : Nat → ℚ) :
    ∀ (l : List Nat), (sortPtrs key l).Perm l
  | [] => List.Perm.refl _
  | x :: xs => by
    rw [sortPtrs]
    exact (insertDesc_perm key x (sortPtrs key xs)).trans ((sortPtrs_perm key xs).cons x)

theorem mem_insertDesc {key : Nat → ℚ} {x y : Nat} {l : List Nat} :
    y ∈ insertDesc key x l ↔ y = x ∨ y ∈ l := by
  rw [(insertDesc_perm key x l).mem_iff]
  simp

theorem insertDesc_pairwise {key : Nat → ℚ} {x : Nat} :
    ∀ {l : List Nat}, List.Pairwise (fun a b => key b ≤ key a) l →
      List.Pairwise (fun a b => key b ≤ key a) (insertDesc key x l)
  | [], _ => List.pairwise_singleton _ x
  | q :: qs, h => by
    rw [List.pairwise_cons] at h
    rw [insertDesc]
    split
    · rename_i hlt
      rw [List.pairwise_cons]
      refine ⟨?_, insertDesc_pairwise h.2⟩
      intro y hy
      rcases mem_insertDesc.mp hy with hyx | hyq
      · rw [hyx]; exact le_of_lt hlt
      · exact h.1 y hyq
    · rename_i hge
      rw [List.pairwise_cons]
      refine ⟨?_, List.pairwise_cons.mpr h⟩
      intro y hy
      rcases List.mem_cons.mp hy with hyq | hyqs
      · rw [hyq]; exact le_of_not_lt hge
      · exact le_trans (h.1 y hyqs) (le_of_not_lt hge)

theorem sortPtrs_pairwise (key : Nat → ℚ) :
    ∀ (l : List Nat), List.Pairwise (fun a b => key b ≤ key a) (sortPtrs key l)
  | [] => List.Pairwise.nil
  | x :: xs => by
    rw [sortPtrs]
    exact insertDesc_pairwise (sortPtrs_pairwise key xs)

theorem filter_insertDesc (key : Nat → ℚ) (x : Nat) (q : ℚ) :
    ∀ (l : List Nat),
      (insertDesc key x l).filter (fun p => key p = q)
        = (x :: l).filter (fun p => key p = q)
  | [] => rfl
  | q0 :: qs => by
    rw [insertDesc]
    split
    · rename_i hlt
      have ih := filter_insertDesc key x q qs
      by_cases hx : key x = q
      · have hq0 : ¬ (key q0 = q) := by
          rw [← hx]
          exact ne_of_gt hlt
        simp [List.filter_cons, ih, hx, hq0]
      · by_cases hq0 : key q0 = q
        · simp [List.filter_cons, ih, hx, hq0]
        · simp [List.filter_cons, ih, hx, hq0]
    · rfl

theorem filter_sortPtrs (key : Nat → ℚ) (q : ℚ) :
    ∀ (l : List Nat),
      (sortPtrs key l).filter (fun p => key p = q) = l.filter (fun p => key p = q)
  | [] => rfl
  | x :: xs => by
    rw [sortPtrs, filter_insertDesc key x q (sortPtrs key xs)]
    rw [List.filter_cons, List.filter_cons, filter_sortPtrs key q xs]

/-! ## Pipeline helper lemmas -/

theorem apply_rapidfuzz_fst_perm (f : String → PRecord → ℚ) (s : String)
    (ptrs : List Nat) (heap : List PRecord) :
    (apply_rapidfuzz_scoring f s ptrs heap).1.Perm ptrs := by
  rw [apply_rapidfuzz_scoring]
  split
  · exact List.Perm.refl _
  · exact sortPtrs_perm _ ptrs

theorem apply_rapidfuzz_fst_length (f : String → PRecord → ℚ) (s : String)
    (ptrs : List Nat) (heap : List PRecord) :
    (apply_rapidfuzz_scoring f s ptrs heap).1.length = ptrs.length :=
  (apply_rapidfuzz_fst_perm f s ptrs heap).length_eq

theorem apply_rapidfuzz_snd_length (f : String → PRecord → ℚ) (s : String)
    (ptrs : List Nat) (heap : List PRecord) :
    (apply_rapidfuzz_scoring f s ptrs heap).2.length = heap.length := by
  rw [apply_rapidfuzz_scoring]
  split
  · rfl
  · exact length_updAll _ ptrs heap

theorem apply_rapidfuzz_snd_getD (f : String → PRecord → ℚ) (s : String)
    {ptrs : List Nat} {heap : List PRecord} {p : Nat} (hnd : ptrs.Nodup)
    (hm : p ∈ ptrs) (hlt : p < heap.length) :
    (apply_rapidfuzz_scoring f s ptrs heap).2.getD p default
      = scoreUpd f s (heap.getD p default) := by
  rw [apply_rapidfuzz_scoring]
  split
  · rename_i hempty
    rw [List.isEmpty_iff] at hempty
    rw [hempty] at hm
    exact absurd hm (by simp)
  · exact getD_updAll_of_mem _ hnd hm hlt

theorem pyStrip_of_blank {s : String} (h : ∀ c ∈ s.data, c.isWhitespace = true) :
    (pyStrip s).data = [] := by
  rw [pyStrip]
  show ((s.data.dropWhile Char.isWhitespace).reverse.dropWhile
      Char.isWhitespace).reverse = []
  have h1 : s.data.dropWhile Char.isWhitespace = [] := by
    rw [List.dropWhile_eq_nil_iff]
    exact h
  rw [h1]
  rfl

/-! ## Claim theorems -/

/-- Claim C1 (corrected), counterexample: the claimed idempotence fails on
the input "a,1" — its first normalization deletes the comma and glues the
letter to the digit, so a second normalization splits them apart again. -/
theorem format_not_idempotent_on_comma :
    format_search_string (format_search_string "a,1")
      ≠ format_search_string "a,1" := by decide

/-- Claim C1 (amended): query normalization is idempotent on every string
that contains no comma and no semicolon; for such inputs
`normalize(normalize(s)) = normalize(s)`. -/
theorem format_idempotent_of_no_comma_semicolon (s : String)
    (h : ∀ c ∈ s.data, c ≠ ',' ∧ c ≠ ';') :
    format_search_string (format_search_string s) = format_search_string s :=
  congrArg String.mk (normalizeChars_idem h)

/-- Witness for C1: the theorem applied to the comma-free query
"Coca Cola 500ml". -/
theorem format_idempotent_witness :
    (∀ c ∈ ("Coca Cola 500ml" : String).data, c ≠ ',' ∧ c ≠ ';') ∧
    format_search_string (format_search_string "Coca Cola 500ml")
      = format_search_string "Coca Cola 500ml" :=
  ⟨by decide, format_idempotent_of_no_comma_semicolon "Coca Cola 500ml" (by decide)⟩

/-- Claim C2 (corrected), counterexample: under the stated transformation
order the example input does not normalize to "milk 2 go chocolate bar" —
deleting the semicolon of "Chocolate;Bar" after the camelCase step has run
glues the two words together for good. -/
theorem normalize_example_mismatch :
    format_search_string "Milk2Go, Chocolate;Bar" ≠ "milk 2 go chocolate bar" := by
  decide

/-- Claim C2 (amended): the normalizer applies camelCase split, letter/digit
split, comma-and-semicolon deletion, whitespace collapse and lowercasing in
that order, and under that order "Milk2Go, Chocolate;Bar" normalizes to
"milk 2 go chocolatebar". -/
theorem normalize_stated_order_example :
    (∀ s : String, format_search_string s
        = ⟨lowercaseAll (collapseWhitespace (removeCommaSemicolon
            (splitLetterDigit (splitCamel s.data))))⟩) ∧
    format_search_string "Milk2Go, Chocolate;Bar" = "milk 2 go chocolatebar" :=
  ⟨fun _ => rfl, by decide⟩

/-- Claim C7: an empty or whitespace-only query is rejected at the command
boundary with exit status 1, independently of the search pipeline — the
rejection happens before `search_products` could run, so no backend call is
attempted. -/
theorem main_rejects_blank_query (searchFn : String → SearchResult)
    (s : String) (h : ∀ c ∈ s.data, c.isWhitespace = true) :
    main_model searchFn s = .earlyExit 1 := by
  rw [main_model, if_pos]
  rw [pyStrip_of_blank h]
  rfl

/-- Witness for C7: the theorem applied to the whitespace-only query "  ",
under a pipeline stub that would report a result if it were ever called. -/
theorem main_rejects_blank_query_witness :
    (∀ c ∈ ("  " : String).data, c.isWhitespace = true) ∧
    main_model (fun _ => SearchResult.error "never called") "  "
      = .earlyExit 1 :=
  ⟨by decide, main_rejects_blank_query _ "  " (by decide)⟩

/-- Claim C8: with `MONGO_URI` unset, or with the MongoDB connection
failing, `search_products` returns the terminal error value — the
constructor carrying only the error message, none of the three result
lists. -/
theorem search_fails_without_mongo :
    (∀ g f conn s find pine,
        search_products g f none conn s find pine
          = .error "MONGO_URI not set") ∧
    (∀ g f uri e s find pine,
        search_products g f (some uri) (.error e) s find pine
          = .error ("MongoDB connection failed: " ++ e)) :=
  ⟨fun _ _ _ _ _ _ => rfl, fun _ _ _ _ _ _ _ => rfl⟩

/-- Claim C4: fuzzy re-ranking is a stable descending sort by the attached
score: the pointer list returned by `apply_rapidfuzz_scoring` is pairwise
descending under the sort key read from the mutated store, and for every
score value the entries carrying that value appear in exactly their input
order. -/
theorem apply_rapidfuzz_sorted_and_stable (f : String → PRecord → ℚ)
    (s : String) (ptrs : List Nat) (heap : List PRecord) :
    List.Pairwise
      (fun a b => keyOf (apply_rapidfuzz_scoring f s ptrs heap).2 b
        ≤ keyOf (apply_rapidfuzz_scoring f s ptrs heap).2 a)
      (apply_rapidfuzz_scoring f s ptrs heap).1 ∧
    ∀ q : ℚ,
      (apply_rapidfuzz_scoring f s ptrs heap).1.filter
          (fun p => keyOf (apply_rapidfuzz_scoring f s ptrs heap).2 p = q)
        = ptrs.filter
            (fun p => keyOf (apply_rapidfuzz_scoring f s ptrs heap).2 p = q) := by
  rw [apply_rapidfuzz_scoring]
  split
  · rename_i hempty
    rw [List.isEmpty_iff] at hempty
    subst hempty
    exact ⟨List.Pairwise.nil, fun q => rfl⟩
  · exact ⟨sortPtrs_pairwise _ ptrs, fun q => filter_sortPtrs _ q ptrs⟩

/-- Claim C5: the ranking sort key never fails on a record with the score
key absent: such a record is ranked with key `0` (the minimum of the score
range), so in the sorted output no positively-scored record ever comes
after it. -/
theorem rank_missing_score_sorts_at_zero :
    (∀ (heap : List PRecord) (p : Nat),
        (heap.getD p default).rapidfuzz_score = none → keyOf heap p = 0) ∧
    (∀ (heap : List PRecord) (ptrs : List Nat) (i j : Nat),
        i < j → ∀ hj : j < (sortPtrs (keyOf heap) ptrs).length,
        (heap.getD ((sortPtrs (keyOf heap) ptrs).getD i 0) default).rapidfuzz_score
          = none →
        keyOf heap ((sortPtrs (keyOf heap) ptrs).getD j 0) ≤ 0) := by
  constructor
  · intro heap p h
    rw [keyOf, h]
    rfl
  · intro heap ptrs i j hij hj hnone
    have hi : i < (sortPtrs (keyOf heap) ptrs).length := lt_trans hij hj
    have hpair := sortPtrs_pairwise (keyOf heap) ptrs
    rw [List.pairwise_iff_get] at hpair
    have := hpair ⟨i, hi⟩ ⟨j, hj⟩ hij
    rw [List.get_eq_getElem, List.get_eq_getElem] at this
    rw [List.getD_eq_getElem _ _ hi, List.getD_eq_getElem _ _ hj] at *
    have hzero : keyOf heap ((sortPtrs (keyOf heap) ptrs)[i]) = 0 := by
      rw [keyOf, hnone]
      rfl
    rw [hzero] at this
    exact this

/-- Witness for C5: a two-record store in which both records lack the score
key; the sort keeps them in input order with key 0 throughout. -/
theorem rank_missing_score_witness :
    keyOf [PRecord.mk "" none none none] 0 = 0 ∧
    keyOf [PRecord.mk "a" none none none, PRecord.mk "b" none none none]
      ((sortPtrs (keyOf [PRecord.mk "a" none none none,
          PRecord.mk "b" none none none]) [0, 1]).getD 1 0) ≤ 0 :=
  ⟨rank_missing_score_sorts_at_zero.1 _ 0 (by decide),
   rank_missing_score_sorts_at_zero.2 _ [0, 1] 0 1 (by decide) (by decide)
     (by decide)⟩

/-- Claim C10: on every invocation that reaches the result-building stage,
the fuzzy-reranked pointer list is a permutation of the lexical pointer
list — same records, nothing added, dropped or duplicated — and the two
reported counts agree. -/
theorem rapidfuzz_list_permutes_direct
    (g : PRecord → String) (f : String → PRecord → ℚ) (uri : String)
    (s : String) (find : Except String (List PRecord))
    (pine : Except String (List SemRecord)) :
    ∃ b, search_products g f (some uri) (.ok ()) s find pine = .ok b
      ∧ b.rapidfuzzPtrs.Perm b.directPtrs
      ∧ b.rapidfuzzCount = b.directCount := by
  dsimp only [search_products]
  refine ⟨_, rfl, ?_, ?_⟩
  · exact apply_rapidfuzz_fst_perm f s _ _
  · exact apply_rapidfuzz_fst_length f s _ _

/-- Claim C6: a backend query error in one retrieval path degrades to zero
results for that path only.  A failing MongoDB text search still yields the
Pinecone results; a failing Pinecone query still yields the lexical and
fuzzy results with their full counts. -/
theorem failing_path_degrades :
    (∀ (g : PRecord → String) (f : String → PRecord → ℚ) (uri s e : String)
        (sem : List SemRecord),
        search_products g f (some uri) (.ok ()) s (.error e) (.ok sem)
          = .ok { input_string := s
                  formatted_string := format_search_string s
                  directPtrs := []
                  directCount := 0
                  rapidfuzzPtrs := []
                  rapidfuzzCount := 0
                  pineconeResults := sem
                  pineconeCount := sem.length
                  heap := [] }) ∧
    (∀ (g : PRecord → String) (f : String → PRecord → ℚ) (uri s : String)
        (rs : List PRecord) (e : String),
        ∃ b, search_products g f (some uri) (.ok ()) s (.ok rs) (.error e)
          = .ok b
          ∧ b.directPtrs = List.range rs.length
          ∧ b.directCount = rs.length
          ∧ b.rapidfuzzCount = rs.length
          ∧ b.pineconeResults = []
          ∧ b.pineconeCount = 0) := by
  constructor
  · intro g f uri s e sem
    rfl
  · intro g f uri s rs e
    dsimp only [search_products, search_products_direct, search_pinecone]
    refine ⟨_, rfl, rfl, ?_, ?_, rfl, rfl⟩
    · exact List.length_range rs.length
    · rw [apply_rapidfuzz_fst_length]
      exact List.length_range rs.length

/-- Claim C9: the fuzzy list is built from a shallow copy sharing the same
record store as the lexical list, so scoring and `given_name` enrichment
write through: in the final bundle every record of the lexical
(`direct_search`) list carries both `rapidfuzz_score` and `given_name`,
while the lexical pointer list itself keeps the backend order `0, 1, ...`
untouched. -/
theorem direct_list_enriched_in_place
    (g : PRecord → String) (f : String → PRecord → ℚ) (uri : String)
    (s : String) (find : Except String (List PRecord))
    (pine : Except String (List SemRecord)) :
    ∃ b, search_products g f (some uri) (.ok ()) s find pine = .ok b
      ∧ b.directPtrs = List.range (search_products_direct find).length
      ∧ ∀ p ∈ b.directPtrs,
          ((b.heap.getD p default).rapidfuzz_score).isSome = true
          ∧ ((b.heap.getD p default).given_name).isSome = true := by
  dsimp only [search_products]
  refine ⟨_, rfl, rfl, ?_⟩
  intro p hp
  rw [List.mem_range] at hp
  set rs := search_products_direct find with hrs
  set ptrs := List.range rs.length with hptrs
  have hnd : ptrs.Nodup := List.nodup_range _
  have hmem : p ∈ ptrs := List.mem_range.mpr hp
  set heap1 := updAll (givenUpd g) ptrs rs with hh1
  have hlen1 : heap1.length = rs.length := length_updAll _ _ _
  set scored := apply_rapidfuzz_scoring f s ptrs heap1 with hsc
  have h2 : scored.2.getD p default = scoreUpd f s (heap1.getD p default) :=
    apply_rapidfuzz_snd_getD f s hnd hmem (by rw [hlen1]; exact hp)
  have hfst : scored.1.Perm ptrs := apply_rapidfuzz_fst_perm f s ptrs heap1
  have hnd2 : scored.1.Nodup := hnd.perm hfst.symm
  have hm2 : p ∈ scored.1 := hfst.mem_iff.mpr hmem
  have hlen2 : scored.2.length = rs.length := by
    rw [apply_rapidfuzz_snd_length]
    exact hlen1
  have h3 : (updAll (givenUpd g) scored.1 scored.2).getD p default
      = givenUpd g (scored.2.getD p default) :=
    getD_updAll_of_mem _ hnd2 hm2 (by rw [hlen2]; exact hp)
  rw [h3, h2]
  constructor
  · simp [givenUpd, scoreUpd]
  · simp [givenUpd]

/-- Claim C3: the fuzzy scorer is applied to the original raw query string:
for every record of the re-ranked list, the stored `rapidfuzz_score` equals
the abstract `compute_rapidfuzz_score` applied to the unmodified
`search_string` (not to its normalized form, which the bundle records
separately as `formatted_string`). -/
theorem rapidfuzz_scoring_uses_raw_query
    (g : PRecord → String) (f : String → PRecord → ℚ) (uri : String)
    (s : String) (find : Except String (List PRecord))
    (pine : Except String (List SemRecord)) (p : Nat)
    (hp : p < (search_products_direct find).length) :
    ∃ b, search_products g f (some uri) (.ok ()) s find pine = .ok b
      ∧ b.input_string = s
      ∧ b.formatted_string = format_search_string s
      ∧ p ∈ b.rapidfuzzPtrs
      ∧ (b.heap.getD p default).rapidfuzz_score
          = some (f s (givenUpd g ((search_products_direct find).getD p default))) := by
  dsimp only [search_products]
  refine ⟨_, rfl, rfl, rfl, ?_, ?_⟩
  · exact (apply_rapidfuzz_fst_perm f s _ _).mem_iff.mpr (List.mem_range.mpr hp)
  · set rs := search_products_direct find with hrs
    set ptrs := List.range rs.length with hptrs
    have hnd : ptrs.Nodup := List.nodup_range _
    have hmem : p ∈ ptrs := List.mem_range.mpr hp
    set heap1 := updAll (givenUpd g) ptrs rs with hh1
    have hlen1 : heap1.length = rs.length := length_updAll _ _ _
    have h1 : heap1.getD p default = givenUpd g (rs.getD p default) :=
      getD_updAll_of_mem _ hnd hmem hp
    set scored := apply_rapidfuzz_scoring f s ptrs heap1 with hsc
    have h2 : scored.2.getD p default = scoreUpd f s (heap1.getD p default) :=
      apply_rapidfuzz_snd_getD f s hnd hmem (by rw [hlen1]; exact hp)
    have hfst : scored.1.Perm ptrs := apply_rapidfuzz_fst_perm f s ptrs heap1
    have hnd2 : scored.1.Nodup := hnd.perm hfst.symm
    have hm2 : p ∈ scored.1 := hfst.mem_iff.mpr hmem
    have hlen2 : scored.2.length = rs.length := by
      rw [apply_rapidfuzz_snd_length]
      exact hlen1
    have h3 : (updAll (givenUpd g) scored.1 scored.2).getD p default
        = givenUpd g (scored.2.getD p default) :=
      getD_updAll_of_mem _ hnd2 hm2 (by rw [hlen2]; exact hp)
    rw [h3, h2, h1]
    simp [givenUpd, scoreUpd]

/-- Witness for C3: a one-record backend response scored with concrete
stand-ins for the two abstract helpers, at pointer 0. -/
theorem rapidfuzz_scoring_uses_raw_query_witness :
    0 < (search_products_direct (Except.ok [rW])).length ∧
    ∃ b, search_products gW fW (some "mongodb://db") (Except.ok ()) "Qx"
          (Except.ok [rW]) (Except.ok []) = SearchResult.ok b
      ∧ b.input_string = "Qx"
      ∧ b.formatted_string = format_search_string "Qx"
      ∧ 0 ∈ b.rapidfuzzPtrs
      ∧ (b.heap.getD 0 default).rapidfuzz_score
          = some (fW "Qx" (givenUpd gW
              ((search_products_direct (Except.ok [rW])).getD 0 default))) :=
  ⟨by decide,
   rapidfuzz_scoring_uses_raw_query gW fW "mongodb://db" "Qx"
     (Except.ok [rW]) (Except.ok []) 0 (by decide)⟩

/-- Witness for C9: on a concrete one-record run, the record seen through
the lexical pointer list carries the attached fuzzy score. -/
theorem direct_list_enriched_witness :
    ∃ b, search_products gW fW (some "mongodb://w") (Except.ok ()) "Qy"
        (Except.ok [rW]) (Except.ok []) = SearchResult.ok b
      ∧ ((b.heap.getD 0 default).rapidfuzz_score).isSome = true
      ∧ ((b.heap.getD 0 default).given_name).isSome = true := by
  obtain ⟨b, hb, hptr, hall⟩ := direct_list_enriched_in_place gW fW
    "mongodb://w" "Qy" (Except.ok [rW]) (Except.ok [])
  refine ⟨b, hb, ?_, ?_⟩
  · exact (hall 0 (by rw [hptr]; decide)).1
  · exact (hall 0 (by rw [hptr]; decide)).2
